import Mathlib

/-!
Verification of the candidate-ranking engine of `coq/server/metrics.py`:
the primary fuzzy match scorer (`_primary`), the difflib-based alignment
fallback (`_secondary`), the weight combiner (`_weights`), the cumulative
normalizer (`_cum`), and the sorting step (`_sorted` / `rank`).

Modelling conventions: Python strings are `List Char`, Python floats are
`ℚ`, the `_ToleranceExceeded` control signal is `Option` with `none` for
the raise, and Python's stable `sorted` is `List.mergeSort`.
-/

namespace Metrics

/-- The `_MatchMetrics` frozen dataclass: the four match-quality fields. -/
structure MatchMetrics where
  prefix_matches : ℕ
  match_density : ℚ
  consecutive_matches : ℕ
  num_matches : ℕ
deriving Repr, DecidableEq

/-- Helper for Python `target.find(c, start, stop)`: walk the tail of the
target that begins at absolute index `k`, returning the least absolute
index `< stop` holding `c`. -/
def findCharAux : List Char → Char → ℕ → ℕ → Option ℕ
  | [], _, _, _ => none
  | c0 :: rest, c, k, stop =>
      if stop ≤ k then none
      else if c0 = c then some k
      else findCharAux rest c (k + 1) stop

/-- Python `target.find(c, start, stop)` for a one-character needle: the
least index `m` with `start ≤ m < stop`, `m < target.length` and
`target[m] = c`; `none` models Python's `-1`. -/
def findCharIn (target : List Char) (c : Char) (start stop : ℕ) : Option ℕ :=
  findCharAux (target.drop start) c start stop

/-- The running state of the `_primary` loop. -/
structure PrimState where
  idx : ℕ
  prefix_broken : Bool
  pm_idx : Option ℕ
  prefix_matches : ℕ
  consecutive_matches : ℕ
  num_matches : ℕ
deriving Repr, DecidableEq

/-- The state of `_primary` before its loop: `idx = 0`,
`prefix_broken = False`, `pm_idx = inf` (modelled `none`), counters 0. -/
def initPrim : PrimState :=
  { idx := 0, prefix_broken := false, pm_idx := none
    prefix_matches := 0, consecutive_matches := 0, num_matches := 0 }

/-- Python `pm_idx == m_idx - 1`: `pm_idx` starts at `inf` (modelled
`none`), and when `m = 0` the right side is `-1`, which no non-negative
`pm_idx` equals, so the test is `pm_idx = some p` with `p + 1 = m`. -/
def isConsecutive (pm : Option ℕ) (m : ℕ) : Bool :=
  match pm with
  | some p => p + 1 == m
  | none => false

/-- One iteration of the `for i, char in enumerate(cword)` loop of
`_primary`; `none` models `raise _ToleranceExceeded()`. -/
def primaryStep (band : ℕ) (mtch nmtch : List Char) (i : ℕ) (c : Char)
    (s : PrimState) : Option PrimState :=
  if band < i ∧ s.num_matches = 0 then none
  else
    let target := if c.isUpper then mtch else nmtch
    match findCharIn target c s.idx (s.idx + band) with
    | some m =>
        let broken := s.prefix_broken || decide (m ≠ i)
        some { idx := m + 1
               prefix_broken := broken
               pm_idx := some m
               prefix_matches := s.prefix_matches + (if broken then 0 else 1)
               consecutive_matches :=
                 s.consecutive_matches + (if isConsecutive s.pm_idx m then 1 else 0)
               num_matches := s.num_matches + 1 }
    | none =>
        some { s with prefix_broken := true }

/-- The full `_primary` scan, starting at index `i` in state `s`. -/
def primaryAux (band : ℕ) (mtch nmtch : List Char) : ℕ → List Char → PrimState → Option PrimState
  | _, [], s => some s
  | i, c :: cs, s =>
      match primaryStep band mtch nmtch i c s with
      | some s2 => primaryAux band mtch nmtch (i + 1) cs s2
      | none => none

/-- `_primary(transpose_band, cword, match, n_match)`: scan `cword`
against the candidate; `none` models the `_ToleranceExceeded` escape.
`match_density = num_matches / len(match) if match else 0`. -/
def primary (band : ℕ) (cword mtch nmtch : List Char) : Option MatchMetrics :=
  (primaryAux band mtch nmtch 0 cword initPrim).map fun s =>
    { prefix_matches := s.prefix_matches
      match_density := if mtch.isEmpty then 0 else (s.num_matches : ℚ) / mtch.length
      consecutive_matches := s.consecutive_matches
      num_matches := s.num_matches }

theorem findCharAux_some_iff (c : Char) (stop : ℕ) :
    ∀ (l : List Char) (k m : ℕ), (findCharAux l c k stop = some m ↔
      k ≤ m ∧ m < stop ∧ (m - k) < l.length ∧ l[m - k]? = some c ∧
        ∀ j, k ≤ j → j < m → l[j - k]? ≠ some c) := by
  intro l
  induction l with
  | nil =>
      intro k m
      constructor
      · intro h; exact absurd h (by simp [findCharAux])
      · rintro ⟨h1, h2, h3, h4, h5⟩
        simp at h3
  | cons c0 rest ih =>
      intro k m
      simp only [findCharAux]
      by_cases hstop : stop ≤ k
      · simp only [if_pos hstop]
        constructor
        · intro h; exact absurd h (by simp)
        · rintro ⟨h1, h2, _⟩; omega
      · simp only [if_neg hstop]
        by_cases hc : c0 = c
        · simp only [if_pos hc]
          constructor
          · intro h
            have hkm : k = m := by simpa using h
            subst hkm
            refine ⟨le_refl _, by omega, by simp, ?_, ?_⟩
            · rw [Nat.sub_self]
              simpa using hc
            · intro j hj1 hj2; omega
          · rintro ⟨h1, h2, h3, h4, h5⟩
            have hkm : k = m := by
              by_contra hne
              have hlt : k < m := by omega
              refine h5 k (le_refl _) hlt ?_
              rw [Nat.sub_self]
              simpa using hc
            rw [hkm]
        · simp only [if_neg hc]
          rw [ih (k + 1) m]
          constructor
          · rintro ⟨h1, h2, h3, h4, h5⟩
            have hd : m - k = (m - (k + 1)) + 1 := by omega
            refine ⟨by omega, h2, by simp only [List.length_cons]; omega, ?_, ?_⟩
            · rw [hd, List.getElem?_cons_succ]; exact h4
            · intro j hj1 hj2
              by_cases hjk : j = k
              · subst hjk
                rw [Nat.sub_self]
                simpa using hc
              · have := h5 j (by omega) hj2
                rw [show j - k = (j - (k + 1)) + 1 from by omega, List.getElem?_cons_succ]
                exact this
          · rintro ⟨h1, h2, h3, h4, h5⟩
            have hkm : k < m := by
              by_contra hge
              have hkm2 : k = m := by omega
              subst hkm2
              rw [Nat.sub_self] at h4
              simp at h4
              exact hc h4
            have hd : m - k = (m - (k + 1)) + 1 := by omega
            rw [hd, List.getElem?_cons_succ] at h4
            refine ⟨by omega, h2, by simp only [List.length_cons] at h3; omega, h4, ?_⟩
            intro j hj1 hj2
            have := h5 j (by omega) hj2
            rw [show j - k = (j - (k + 1)) + 1 from by omega, List.getElem?_cons_succ] at this
            exact this

/-- Characterisation of the bounded one-character search: it returns the
first occurrence of `c` in `target` within the half-open window
`[start, stop)` (also bounded by the string length), and `none` exactly
when no such occurrence exists. -/
theorem findCharIn_some_iff (target : List Char) (c : Char) (start stop m : ℕ) :
    findCharIn target c start stop = some m ↔
      start ≤ m ∧ m < stop ∧ m < target.length ∧ target[m]? = some c ∧
        ∀ j, start ≤ j → j < m → target[j]? ≠ some c := by
  unfold findCharIn
  rw [findCharAux_some_iff]
  constructor
  · rintro ⟨h1, h2, h3, h4, h5⟩
    rw [List.length_drop] at h3
    rw [List.getElem?_drop, show start + (m - start) = m from by omega] at h4
    refine ⟨h1, h2, by omega, h4, ?_⟩
    intro j hj1 hj2
    have := h5 j hj1 hj2
    rw [List.getElem?_drop, show start + (j - start) = j from by omega] at this
    exact this
  · rintro ⟨h1, h2, h3, h4, h5⟩
    refine ⟨h1, h2, ?_, ?_, ?_⟩
    · rw [List.length_drop]; omega
    · rw [List.getElem?_drop, show start + (m - start) = m from by omega]; exact h4
    · intro j hj1 hj2
      rw [List.getElem?_drop, show start + (j - start) = j from by omega]
      exact h5 j hj1 hj2

/-- The `_isjunk` predicate handed to `SequenceMatcher`: Python
`str.isspace()` on a one-character string, modelled by Lean's ASCII
whitespace test (space, tab, carriage return, newline), the whitespace
this editor pipeline can feed it. -/
def isSpaceChar (c : Char) : Bool := c.isWhitespace

/-- Ascending position list of `c` in `b`: difflib `b2j` before junk and
autojunk deletion (`__chain_b`, first loop). -/
def positions (b : List Char) (c : Char) : List ℕ :=
  (List.range b.length).filter (fun j => decide (b[j]? = some c))

/-- difflib `self.bjunk`: junk elements of `b`.  It is only ever queried
at characters of `b`, so the membership-in-`b` part of the set is
dropped. -/
def bjunk (c : Char) : Bool := isSpaceChar c

/-- difflib autojunk (`__chain_b`): with `n = len(b) ≥ 200`, non-junk
elements occurring more than `n // 100 + 1` times are dropped from
`b2j`. -/
def bpopular (b : List Char) (c : Char) : Bool :=
  decide (200 ≤ b.length) && !bjunk c && decide (b.length / 100 + 1 < b.count c)

/-- difflib `b2j.get(elt, [])` after junk and autojunk deletion. -/
def b2j (b : List Char) (c : Char) : List ℕ :=
  if bjunk c || bpopular b c then [] else positions b c

/-- Python `j2len.get(j - 1, 0)`: at `j = 0` the key `-1` is absent, so
the read is 0. -/
def j2lenGet (f : ℕ → ℕ) (j : ℕ) : ℕ :=
  match j with
  | 0 => 0
  | jp + 1 => f jp

/-- One row of the `find_longest_match` dynamic program: walk the
position list of `a[i]` with the Python `continue`/`break` pattern,
threading `newj2len` (a total function, absent keys read 0) and the
running best `(besti, bestj, bestsize)`.  Python sets
`besti = i - k + 1`, written `i + 1 - k` here; on every reachable state
`k ≤ i + 1`, so the ℕ truncation never differs. -/
def flmRow (blo bhi i : ℕ) : List ℕ → (ℕ → ℕ) → (ℕ → ℕ) → ℕ × ℕ × ℕ → ((ℕ → ℕ) × (ℕ × ℕ × ℕ))
  | [], _, new, best => (new, best)
  | j :: js, old, new, best =>
      if j < blo then flmRow blo bhi i js old new best
      else if bhi ≤ j then (new, best)
      else
        let k := j2lenGet old j + 1
        let new2 := fun x => if x = j then k else new x
        let best2 := if best.2.2 < k then (i + 1 - k, j + 1 - k, k) else best
        flmRow blo bhi i js old new2 best2

/-- The `for i in range(alo, ahi)` loop of `find_longest_match`: each row
starts from a fresh empty `newj2len` and the previous row as `j2len`. -/
def flmRows (a b : List Char) (blo bhi : ℕ) : List ℕ → (ℕ → ℕ) → ℕ × ℕ × ℕ → ℕ × ℕ × ℕ
  | [], _, best => best
  | i :: rows, j2len, best =>
      let r := flmRow blo bhi i (match a[i]? with | some c => b2j b c | none => []) j2len (fun _ => 0) best
      flmRows a b blo bhi rows r.1 r.2

/-- Guard of the two backward extension loops of `find_longest_match`
(`junk = false` for the non-junk loop, `true` for the junk loop):
`besti > alo and bestj > blo and isbjunk(b[bestj-1]) == junk and
a[besti-1] == b[bestj-1]`. -/
def backCond (junk : Bool) (a b : List Char) (alo blo bi bj : ℕ) : Bool :=
  decide (alo < bi) && decide (blo < bj) &&
    (match a[bi - 1]?, b[bj - 1]? with
     | some ca, some cb => (bjunk cb == junk) && (ca == cb)
     | _, _ => false)

/-- Guard of the two forward extension loops of `find_longest_match`:
`besti+bestsize < ahi and bestj+bestsize < bhi and
isbjunk(b[bestj+bestsize]) == junk and a[besti+bestsize] ==
b[bestj+bestsize]`. -/
def fwdCond (junk : Bool) (a b : List Char) (ahi bhi bi bj bs : ℕ) : Bool :=
  decide (bi + bs < ahi) && decide (bj + bs < bhi) &&
    (match a[bi + bs]?, b[bj + bs]? with
     | some ca, some cb => (bjunk cb == junk) && (ca == cb)
     | _, _ => false)

/-- A backward extension loop of `find_longest_match`: grow the match
leftwards one character at a time while the guard holds. -/
def extendBack (junk : Bool) (a b : List Char) (alo blo : ℕ) (bi bj bs : ℕ) : ℕ × ℕ × ℕ :=
  if backCond junk a b alo blo bi bj then
    extendBack junk a b alo blo (bi - 1) (bj - 1) (bs + 1)
  else (bi, bj, bs)
termination_by bi
decreasing_by
  rename_i h
  simp only [backCond, Bool.and_eq_true, decide_eq_true_eq] at h
  omega

/-- A forward extension loop of `find_longest_match`: only `bestsize`
changes. -/
def extendFwd (junk : Bool) (a b : List Char) (ahi bhi bi bj : ℕ) (bs : ℕ) : ℕ :=
  if fwdCond junk a b ahi bhi bi bj bs then
    extendFwd junk a b ahi bhi bi bj (bs + 1)
  else bs
termination_by ahi - (bi + bs)
decreasing_by
  rename_i h
  simp only [fwdCond, Bool.and_eq_true, decide_eq_true_eq] at h
  omega

/-- difflib `SequenceMatcher.find_longest_match(alo, ahi, blo, bhi)`:
the dynamic program over `b2j`, then the four extension loops (widen
over equal non-junk characters, then over equal junk characters). -/
def flm (a b : List Char) (alo ahi blo bhi : ℕ) : ℕ × ℕ × ℕ :=
  let best0 := flmRows a b blo bhi (List.range' alo (ahi - alo)) (fun _ => 0) (alo, blo, 0)
  let p1 := extendBack false a b alo blo best0.1 best0.2.1 best0.2.2
  let s2 := extendFwd false a b ahi bhi p1.1 p1.2.1 p1.2.2
  let p3 := extendBack true a b alo blo p1.1 p1.2.1 s2
  let s4 := extendFwd true a b ahi bhi p3.1 p3.2.1 p3.2.2
  (p3.1, p3.2.1, s4)

/-- Bounds carried by a running `find_longest_match` best triple: a
positive-size match lies inside the `[alo, ahi) × [blo, bhi)` window,
and a zero-size best is still the initial `(alo, blo, 0)`. -/
def bestInv (alo ahi blo bhi : ℕ) (p : ℕ × ℕ × ℕ) : Prop :=
  (0 < p.2.2 → alo ≤ p.1 ∧ p.1 + p.2.2 ≤ ahi ∧ blo ≤ p.2.1 ∧ p.2.1 + p.2.2 ≤ bhi) ∧
  (p.2.2 = 0 → p.1 = alo ∧ p.2.1 = blo)

/-- Bounds carried by a `j2len` row: nonzero entries lie at or after
`blo` and are capped both by the window offset and by the number of
rows processed so far. -/
def rowInv (blo cap : ℕ) (f : ℕ → ℕ) : Prop :=
  ∀ j, f j ≠ 0 → blo ≤ j ∧ f j ≤ j + 1 - blo ∧ f j ≤ cap

theorem flmRow_inv (alo ahi blo bhi i : ℕ) (hi1 : alo ≤ i) (hi2 : i < ahi) :
    ∀ (js : List ℕ) (old new : ℕ → ℕ) (best : ℕ × ℕ × ℕ),
      rowInv blo (i - alo) old → rowInv blo (i + 1 - alo) new →
      bestInv alo ahi blo bhi best →
      rowInv blo (i + 1 - alo) (flmRow blo bhi i js old new best).1 ∧
      bestInv alo ahi blo bhi (flmRow blo bhi i js old new best).2 := by
  intro js
  induction js with
  | nil =>
      intro old new best _ hnew hbest
      exact ⟨hnew, hbest⟩
  | cons j js ih =>
      intro old new best hold hnew hbest
      simp only [flmRow]
      by_cases h1 : j < blo
      · simp only [if_pos h1]
        exact ih old new best hold hnew hbest
      · simp only [if_neg h1]
        by_cases h2 : bhi ≤ j
        · simp only [if_pos h2]
          exact ⟨hnew, hbest⟩
        · simp only [if_neg h2]
          have hblo : blo ≤ j := by omega
          have hk : j2lenGet old j + 1 ≤ j + 1 - blo ∧ j2lenGet old j + 1 ≤ i + 1 - alo := by
            match j with
            | 0 =>
                simp only [j2lenGet]
                omega
            | jp + 1 =>
                simp only [j2lenGet]
                by_cases hz : old jp = 0
                · rw [hz]; omega
                · have := hold jp hz
                  omega
          refine ih old _ _ hold ?_ ?_
          · intro x hx
            by_cases hxj : x = j
            · subst hxj
              simp only [if_pos rfl]
              exact ⟨hblo, hk.1, hk.2⟩
            · simp only [if_neg hxj] at hx ⊢
              exact hnew x hx
          · by_cases hlt : best.2.2 < j2lenGet old j + 1
            · simp only [if_pos hlt]
              refine ⟨fun _ => ?_, fun hzero => ?_⟩
              · dsimp only
                refine ⟨by omega, by omega, by omega, by omega⟩
              · dsimp only at hzero
                exact absurd hzero (by omega)
            · simp only [if_neg hlt]
              exact hbest

theorem flmRows_inv (a b : List Char) (alo ahi blo bhi : ℕ) :
    ∀ (n i0 : ℕ) (j2len : ℕ → ℕ) (best : ℕ × ℕ × ℕ),
      alo ≤ i0 → (0 < n → i0 + n ≤ ahi) →
      rowInv blo (i0 - alo) j2len → bestInv alo ahi blo bhi best →
      bestInv alo ahi blo bhi (flmRows a b blo bhi (List.range' i0 n) j2len best) := by
  intro n
  induction n with
  | zero =>
      intro i0 j2len best _ _ _ hbest
      simpa [flmRows, List.range'] using hbest
  | succ n ih =>
      intro i0 j2len best hi0 hn hrow hbest
      have hr : List.range' i0 (n + 1) = i0 :: List.range' (i0 + 1) n := by
        simp [List.range']
      rw [hr]
      simp only [flmRows]
      have hi2 : i0 < ahi := by omega
      have h := flmRow_inv alo ahi blo bhi i0 hi0 hi2
        (match a[i0]? with | some c => b2j b c | none => []) j2len (fun _ => 0) best
        hrow (fun x hx => absurd rfl hx) hbest
      exact ih (i0 + 1) _ _ (by omega) (fun _ => by omega) h.1 h.2

theorem backCond_lt (junk : Bool) (a b : List Char) (alo blo bi bj : ℕ)
    (h : backCond junk a b alo blo bi bj = true) : alo < bi ∧ blo < bj := by
  simp only [backCond, Bool.and_eq_true, decide_eq_true_eq] at h
  exact ⟨h.1.1, h.1.2⟩

theorem extendBack_inv (junk : Bool) (a b : List Char) (alo blo ahi bhi : ℕ) :
    ∀ (bi bj bs : ℕ), alo ≤ bi → blo ≤ bj →
      (0 < bs → bi + bs ≤ ahi ∧ bj + bs ≤ bhi) → (bs = 0 → bi = alo ∧ bj = blo) →
      alo ≤ (extendBack junk a b alo blo bi bj bs).1 ∧
      blo ≤ (extendBack junk a b alo blo bi bj bs).2.1 ∧
      (0 < (extendBack junk a b alo blo bi bj bs).2.2 →
        (extendBack junk a b alo blo bi bj bs).1 + (extendBack junk a b alo blo bi bj bs).2.2 ≤ ahi ∧
        (extendBack junk a b alo blo bi bj bs).2.1 + (extendBack junk a b alo blo bi bj bs).2.2 ≤ bhi) ∧
      ((extendBack junk a b alo blo bi bj bs).2.2 = 0 →
        (extendBack junk a b alo blo bi bj bs).1 = alo ∧ (extendBack junk a b alo blo bi bj bs).2.1 = blo) := by
  intro bi
  induction bi using Nat.strong_induction_on with
  | _ bi ih =>
      intro bj bs h1 h2 h3 h4
      rw [extendBack]
      by_cases hc : backCond junk a b alo blo bi bj = true
      · rw [if_pos hc]
        obtain ⟨hb1, hb2⟩ := backCond_lt junk a b alo blo bi bj hc
        have hsum : bi + bs ≤ ahi ∧ bj + bs ≤ bhi := by
          rcases Nat.eq_zero_or_pos bs with h | h
          · exact absurd (h4 h).1 (by omega)
          · exact h3 h
        exact ih (bi - 1) (by omega) (bj - 1) (bs + 1) (by omega) (by omega)
          (fun _ => by omega) (by omega)
      · rw [if_neg hc]
        exact ⟨h1, h2, h3, h4⟩

theorem extendFwd_inv (junk : Bool) (a b : List Char) (ahi bhi bi bj : ℕ) :
    ∀ (fuel bs : ℕ), ahi - (bi + bs) ≤ fuel →
      (0 < bs → bi + bs ≤ ahi ∧ bj + bs ≤ bhi) →
      bs ≤ extendFwd junk a b ahi bhi bi bj bs ∧
      (0 < extendFwd junk a b ahi bhi bi bj bs →
        bi + extendFwd junk a b ahi bhi bi bj bs ≤ ahi ∧
        bj + extendFwd junk a b ahi bhi bi bj bs ≤ bhi) := by
  intro fuel
  induction fuel with
  | zero =>
      intro bs hfuel hbs
      rw [extendFwd]
      have hc : ¬ fwdCond junk a b ahi bhi bi bj bs = true := by
        intro h
        simp only [fwdCond, Bool.and_eq_true, decide_eq_true_eq] at h
        omega
      rw [if_neg hc]
      exact ⟨le_refl _, hbs⟩
  | succ fuel ih =>
      intro bs hfuel hbs
      rw [extendFwd]
      by_cases hc : fwdCond junk a b ahi bhi bi bj bs = true
      · rw [if_pos hc]
        have hlt : bi + bs < ahi ∧ bj + bs < bhi := by
          simp only [fwdCond, Bool.and_eq_true, decide_eq_true_eq] at hc
          exact ⟨hc.1.1, hc.1.2⟩
        have h := ih (bs + 1) (by omega) (fun _ => by omega)
        exact ⟨by omega, h.2⟩
      · rw [if_neg hc]
        exact ⟨le_refl _, hbs⟩

/-- The `find_longest_match` result with positive size lies inside the
requested `[alo, ahi) × [blo, bhi)` window. -/
theorem flm_bounds (a b : List Char) (alo ahi blo bhi : ℕ) :
    0 < (flm a b alo ahi blo bhi).2.2 →
      alo ≤ (flm a b alo ahi blo bhi).1 ∧
      (flm a b alo ahi blo bhi).1 + (flm a b alo ahi blo bhi).2.2 ≤ ahi ∧
      blo ≤ (flm a b alo ahi blo bhi).2.1 ∧
      (flm a b alo ahi blo bhi).2.1 + (flm a b alo ahi blo bhi).2.2 ≤ bhi := by
  intro hpos
  simp only [flm] at hpos ⊢
  set b0 := flmRows a b blo bhi (List.range' alo (ahi - alo)) (fun _ => 0) (alo, blo, 0) with hb0
  set p1 := extendBack false a b alo blo b0.1 b0.2.1 b0.2.2 with hp1
  set s2 := extendFwd false a b ahi bhi p1.1 p1.2.1 p1.2.2 with hs2
  set p3 := extendBack true a b alo blo p1.1 p1.2.1 s2 with hp3
  set s4 := extendFwd true a b ahi bhi p3.1 p3.2.1 p3.2.2 with hs4
  have h0 : bestInv alo ahi blo bhi b0 := by
    rw [hb0]
    refine flmRows_inv a b alo ahi blo bhi (ahi - alo) alo (fun _ => 0) (alo, blo, 0)
      (le_refl _) (fun _ => by omega) (fun j hj => absurd rfl hj) ?_
    exact ⟨fun h => absurd h (by simp), fun _ => ⟨rfl, rfl⟩⟩
  have halo0 : alo ≤ b0.1 ∧ blo ≤ b0.2.1 := by
    rcases Nat.eq_zero_or_pos b0.2.2 with h | h
    · have := h0.2 h
      omega
    · have := h0.1 h
      omega
  have h1 := extendBack_inv false a b alo blo ahi bhi b0.1 b0.2.1 b0.2.2
    halo0.1 halo0.2 (fun h => ⟨(h0.1 h).2.1, (h0.1 h).2.2.2⟩) h0.2
  rw [← hp1] at h1
  have h2 := extendFwd_inv false a b ahi bhi p1.1 p1.2.1 ahi p1.2.2 (by omega) h1.2.2.1
  rw [← hs2] at h2
  have h3 := extendBack_inv true a b alo blo ahi bhi p1.1 p1.2.1 s2
    h1.1 h1.2.1 h2.2 (fun h => h1.2.2.2 (by omega))
  rw [← hp3] at h3
  have h4 := extendFwd_inv true a b ahi bhi p3.1 p3.2.1 ahi p3.2.2 (by omega) h3.2.2.1
  rw [← hs4] at h4
  exact ⟨h3.1, (h4.2 hpos).1, h3.2.1, (h4.2 hpos).2⟩

/-- The queue loop of difflib `get_matching_blocks`, written as the
equivalent recursion: each popped window contributes its longest match
and the two sub-windows beside it (under the same guards Python uses
before pushing them).  The queue order only permutes the collected
blocks, which Python sorts afterwards; this in-order recursion emits
them already sorted. -/
def rawBlocks (a b : List Char) (alo ahi blo bhi : ℕ) : List (ℕ × ℕ × ℕ) :=
  if _h0 : (flm a b alo ahi blo bhi).2.2 = 0 then []
  else
    (if _h1 : alo < (flm a b alo ahi blo bhi).1 ∧ blo < (flm a b alo ahi blo bhi).2.1 then
        rawBlocks a b alo (flm a b alo ahi blo bhi).1 blo (flm a b alo ahi blo bhi).2.1
      else []) ++
    flm a b alo ahi blo bhi ::
    (if _h2 : (flm a b alo ahi blo bhi).1 + (flm a b alo ahi blo bhi).2.2 < ahi ∧
             (flm a b alo ahi blo bhi).2.1 + (flm a b alo ahi blo bhi).2.2 < bhi then
        rawBlocks a b ((flm a b alo ahi blo bhi).1 + (flm a b alo ahi blo bhi).2.2) ahi
          ((flm a b alo ahi blo bhi).2.1 + (flm a b alo ahi blo bhi).2.2) bhi
      else [])
termination_by ahi - alo
decreasing_by
  · have hb := flm_bounds a b alo ahi blo bhi (by omega)
    omega
  · have hb := flm_bounds a b alo ahi blo bhi (by omega)
    omega

/-- Sum of the sizes of a block list. -/
def sumSizes (l : List (ℕ × ℕ × ℕ)) : ℕ := (l.map (fun p => p.2.2)).sum

theorem sumSizes_nil : sumSizes [] = 0 := rfl

theorem sumSizes_cons (p : ℕ × ℕ × ℕ) (l : List (ℕ × ℕ × ℕ)) :
    sumSizes (p :: l) = p.2.2 + sumSizes l := by
  simp [sumSizes]

theorem sumSizes_append (l1 l2 : List (ℕ × ℕ × ℕ)) :
    sumSizes (l1 ++ l2) = sumSizes l1 + sumSizes l2 := by
  simp [sumSizes]

/-- The blocks collected over a window cover pairwise-disjoint `b`-side
intervals inside it, so their sizes sum to at most the window width. -/
theorem rawBlocks_sum (a b : List Char) :
    ∀ (fuel alo ahi blo bhi : ℕ), ahi - alo ≤ fuel →
      sumSizes (rawBlocks a b alo ahi blo bhi) ≤ bhi - blo := by
  intro fuel
  induction fuel with
  | zero =>
      intro alo ahi blo bhi hfuel
      rw [rawBlocks]
      by_cases h0 : (flm a b alo ahi blo bhi).2.2 = 0
      · rw [dif_pos h0]
        simp [sumSizes]
      · exfalso
        have hb := flm_bounds a b alo ahi blo bhi (by omega)
        omega
  | succ fuel ih =>
      intro alo ahi blo bhi hfuel
      rw [rawBlocks]
      by_cases h0 : (flm a b alo ahi blo bhi).2.2 = 0
      · rw [dif_pos h0]
        simp [sumSizes]
      · rw [dif_neg h0]
        have hb := flm_bounds a b alo ahi blo bhi (by omega)
        have hleft : sumSizes (if h1 : alo < (flm a b alo ahi blo bhi).1 ∧
            blo < (flm a b alo ahi blo bhi).2.1 then
              rawBlocks a b alo (flm a b alo ahi blo bhi).1 blo (flm a b alo ahi blo bhi).2.1
            else []) ≤ (flm a b alo ahi blo bhi).2.1 - blo := by
          by_cases h1 : alo < (flm a b alo ahi blo bhi).1 ∧ blo < (flm a b alo ahi blo bhi).2.1
          · rw [dif_pos h1]
            exact ih alo (flm a b alo ahi blo bhi).1 blo (flm a b alo ahi blo bhi).2.1 (by omega)
          · rw [dif_neg h1]
            simp [sumSizes]
        have hright : sumSizes (if h2 : (flm a b alo ahi blo bhi).1 + (flm a b alo ahi blo bhi).2.2 < ahi ∧
            (flm a b alo ahi blo bhi).2.1 + (flm a b alo ahi blo bhi).2.2 < bhi then
              rawBlocks a b ((flm a b alo ahi blo bhi).1 + (flm a b alo ahi blo bhi).2.2) ahi
                ((flm a b alo ahi blo bhi).2.1 + (flm a b alo ahi blo bhi).2.2) bhi
            else []) ≤ bhi - ((flm a b alo ahi blo bhi).2.1 + (flm a b alo ahi blo bhi).2.2) := by
          by_cases h2 : (flm a b alo ahi blo bhi).1 + (flm a b alo ahi blo bhi).2.2 < ahi ∧
              (flm a b alo ahi blo bhi).2.1 + (flm a b alo ahi blo bhi).2.2 < bhi
          · rw [dif_pos h2]
            exact ih ((flm a b alo ahi blo bhi).1 + (flm a b alo ahi blo bhi).2.2) ahi
              ((flm a b alo ahi blo bhi).2.1 + (flm a b alo ahi blo bhi).2.2) bhi (by omega)
          · rw [dif_neg h2]
            simp [sumSizes]
        simp only [sumSizes, List.map_append, List.sum_append, List.map_cons, List.sum_cons] at hleft hright ⊢
        omega

/-- The adjacent-coalescing pass at the end of `get_matching_blocks`:
thread the current block `(i1, j1, k1)`, absorbing each incoming block
that starts exactly where the current one ends, and emitting the
current block (when non-empty) otherwise. -/
def mergeAdj : List (ℕ × ℕ × ℕ) → ℕ × ℕ × ℕ → List (ℕ × ℕ × ℕ)
  | [], cur => if cur.2.2 ≠ 0 then [cur] else []
  | blk :: rest, cur =>
      if cur.1 + cur.2.2 = blk.1 ∧ cur.2.1 + cur.2.2 = blk.2.1 then
        mergeAdj rest (cur.1, cur.2.1, cur.2.2 + blk.2.2)
      else
        (if cur.2.2 ≠ 0 then [cur] else []) ++ mergeAdj rest blk

theorem mergeAdj_sum : ∀ (l : List (ℕ × ℕ × ℕ)) (cur : ℕ × ℕ × ℕ),
    sumSizes (mergeAdj l cur) = cur.2.2 + sumSizes l := by
  intro l
  induction l with
  | nil =>
      intro cur
      by_cases h : cur.2.2 ≠ 0
      · rw [mergeAdj, if_pos h, sumSizes_cons]
      · rw [mergeAdj, if_neg h, sumSizes_nil]
        simp only [ne_eq, not_not] at h
        omega
  | cons blk rest ih =>
      intro cur
      simp only [mergeAdj]
      by_cases h : cur.1 + cur.2.2 = blk.1 ∧ cur.2.1 + cur.2.2 = blk.2.1
      · rw [if_pos h, ih]
        simp only [sumSizes, List.map_cons, List.sum_cons]
        omega
      · rw [if_neg h, sumSizes_append, ih, sumSizes_cons]
        by_cases h2 : cur.2.2 ≠ 0
        · rw [if_pos h2, sumSizes_cons, sumSizes_nil]
          omega
        · rw [if_neg h2, sumSizes_nil]
          simp only [ne_eq, not_not] at h2
          omega

/-- difflib `SequenceMatcher(isjunk, a, b).get_matching_blocks()`: the
recursive block collection (already sorted), the adjacent-merge pass
starting from `(0, 0, 0)`, and the `(len(a), len(b), 0)` sentinel. -/
def getMatchingBlocks (a b : List Char) : List (ℕ × ℕ × ℕ) :=
  mergeAdj (rawBlocks a b 0 a.length 0 b.length) (0, 0, 0) ++ [(a.length, b.length, 0)]

theorem getMatchingBlocks_sum (a b : List Char) :
    sumSizes (getMatchingBlocks a b) ≤ b.length := by
  have h1 := rawBlocks_sum a b a.length 0 a.length 0 b.length (by omega)
  have h2 := mergeAdj_sum (rawBlocks a b 0 a.length 0 b.length) (0, 0, 0)
  simp only [getMatchingBlocks, sumSizes, List.map_append, List.sum_append,
    List.map_cons, List.sum_cons, List.map_nil, List.sum_nil] at h1 h2 ⊢
  omega

/-- `_secondary(n_cword, n_match)`: match metrics from the difflib
matching blocks.  `num_matches` sums the block sizes; `prefix_matches`
is assigned (overwritten) to the size of a block starting at `(0, 0)`;
`matches` lists the covered `b`-side positions in block order;
`consecutive_matches` counts positions that follow the previously
visited one by exactly one, with the same `inf`-initialised `pm_idx`
convention as `_primary`. -/
def secondary (n_cword n_match : List Char) : MatchMetrics :=
  let blocks := getMatchingBlocks n_cword n_match
  let num_matches := sumSizes blocks
  let prefix_matches := blocks.foldl (fun acc p => if p.1 = 0 ∧ p.2.1 = 0 then p.2.2 else acc) 0
  let matchPositions := blocks.foldl (fun acc p => acc ++ List.range' p.2.1 p.2.2) ([] : List ℕ)
  let consecutive_matches :=
    (matchPositions.foldl (fun st i => (some i, st.2 + (if isConsecutive st.1 i then 1 else 0)))
      ((none, 0) : Option ℕ × ℕ)).2
  { prefix_matches := prefix_matches
    match_density := if n_match.isEmpty then 0 else (num_matches : ℚ) / n_match.length
    consecutive_matches := consecutive_matches
    num_matches := num_matches }

theorem sizes_le_sum : ∀ (l : List (ℕ × ℕ × ℕ)), ∀ p ∈ l, p.2.2 ≤ sumSizes l := by
  intro l
  induction l with
  | nil =>
      intro p hp
      simp at hp
  | cons q rest ih =>
      intro p hp
      rw [sumSizes_cons]
      rcases List.mem_cons.mp hp with h | h
      · subst h; omega
      · have := ih p h; omega

theorem prefixFold_le (bound : ℕ) :
    ∀ (l : List (ℕ × ℕ × ℕ)) (acc : ℕ), acc ≤ bound → (∀ p ∈ l, p.2.2 ≤ bound) →
      l.foldl (fun acc p => if p.1 = 0 ∧ p.2.1 = 0 then p.2.2 else acc) acc ≤ bound := by
  intro l
  induction l with
  | nil =>
      intro acc h _
      simpa using h
  | cons p rest ih =>
      intro acc h hall
      simp only [List.foldl_cons]
      by_cases hp : p.1 = 0 ∧ p.2.1 = 0
      · rw [if_pos hp]
        exact ih _ (hall p (by simp)) (fun q hq => hall q (by simp [hq]))
      · rw [if_neg hp]
        exact ih _ h (fun q hq => hall q (by simp [hq]))

theorem consecFold_le : ∀ (ms : List ℕ) (pm : Option ℕ) (c : ℕ),
    ((ms.foldl (fun st i => (some i, st.2 + (if isConsecutive st.1 i then 1 else 0)))
      ((pm, c) : Option ℕ × ℕ)).2) ≤ c + ms.length := by
  intro ms
  induction ms with
  | nil =>
      intro pm c
      simp
  | cons i rest ih =>
      intro pm c
      simp only [List.foldl_cons, List.length_cons]
      by_cases h : isConsecutive pm i = true
      · rw [if_pos h]
        have := ih (some i) (c + 1)
        omega
      · rw [if_neg h]
        have := ih (some i) (c + 0)
        omega

theorem matchFold_length : ∀ (l : List (ℕ × ℕ × ℕ)) (acc : List ℕ),
    (l.foldl (fun acc p => acc ++ List.range' p.2.1 p.2.2) acc).length =
      acc.length + sumSizes l := by
  intro l
  induction l with
  | nil =>
      intro acc
      simp [sumSizes]
  | cons p rest ih =>
      intro acc
      simp only [List.foldl_cons, sumSizes_cons]
      rw [ih]
      simp only [List.length_append, List.length_range']
      omega

/-- The `_secondary` output invariants: ordered counters, block mass
bounded by the candidate length, and a density in `[0, 1]` (0 exactly
when the candidate is empty). -/
theorem secondary_props (a b : List Char) :
    (secondary a b).prefix_matches ≤ (secondary a b).num_matches ∧
    (secondary a b).consecutive_matches ≤ (secondary a b).num_matches ∧
    (secondary a b).num_matches ≤ b.length ∧
    0 ≤ (secondary a b).match_density ∧
    (b = [] → (secondary a b).match_density = 0) ∧
    (b ≠ [] → (secondary a b).match_density ≤ 1) := by
  simp only [secondary]
  refine ⟨?_, ?_, ?_, ?_, ?_, ?_⟩
  · exact prefixFold_le _ _ 0 (by omega) (fun p hp => sizes_le_sum _ p hp)
  · have h1 := consecFold_le
      ((getMatchingBlocks a b).foldl (fun acc p => acc ++ List.range' p.2.1 p.2.2) ([] : List ℕ))
      none 0
    have h2 := matchFold_length (getMatchingBlocks a b) ([] : List ℕ)
    simp only [List.length_nil] at h2
    omega
  · exact getMatchingBlocks_sum a b
  · by_cases hb : b.isEmpty
    · rw [if_pos hb]
    · rw [if_neg hb]
      positivity
  · intro hb
    subst hb
    simp
  · intro hb
    have hlen : 0 < b.length := List.length_pos.mpr hb
    rw [if_neg (by simpa [List.isEmpty_iff] using hb)]
    rw [div_le_one (by exact_mod_cast hlen)]
    exact_mod_cast getMatchingBlocks_sum a b

/-- Loop invariant of `_primary`: counters are ordered, matches never
outnumber the scan cursor, and the cursor never passes the end of the
longer of the two candidate forms. -/
def primInv (L : ℕ) (s : PrimState) : Prop :=
  s.prefix_matches ≤ s.num_matches ∧ s.consecutive_matches ≤ s.num_matches ∧
  s.num_matches ≤ s.idx ∧ s.idx ≤ L

theorem primaryStep_inv (band : ℕ) (mtch nmtch : List Char) (i : ℕ) (c : Char)
    {s s2 : PrimState} (hs : primInv (max mtch.length nmtch.length) s)
    (h : primaryStep band mtch nmtch i c s = some s2) :
    primInv (max mtch.length nmtch.length) s2 := by
  unfold primaryStep at h
  by_cases hg : band < i ∧ s.num_matches = 0
  · rw [if_pos hg] at h
    exact absurd h (by simp)
  · rw [if_neg hg] at h
    rcases hfind : findCharIn (if c.isUpper then mtch else nmtch) c s.idx (s.idx + band)
      with _ | m
    · simp only [hfind, Option.some.injEq] at h
      subst h
      exact hs
    · simp only [hfind, Option.some.injEq] at h
      subst h
      have hb := (findCharIn_some_iff _ c s.idx (s.idx + band) m).mp hfind
      have hlen : (if c.isUpper then mtch else nmtch).length ≤ max mtch.length nmtch.length := by
        by_cases hu : c.isUpper <;> simp [hu, le_max_left, le_max_right]
      obtain ⟨hb1, hb2, hb3, _, _⟩ := hb
      obtain ⟨hp, hc2, hn, hi⟩ := hs
      refine ⟨?_, ?_, ?_, ?_⟩
      · simp only
        have : (if s.prefix_broken || decide (m ≠ i) then 0 else 1) ≤ 1 := by
          split <;> omega
        omega
      · simp only
        have : (if isConsecutive s.pm_idx m then 1 else 0) ≤ 1 := by
          split <;> omega
        omega
      · simp only
        omega
      · simp only
        omega

theorem primaryAux_inv (band : ℕ) (mtch nmtch : List Char) :
    ∀ (cs : List Char) (i : ℕ) (s s2 : PrimState),
      primInv (max mtch.length nmtch.length) s →
      primaryAux band mtch nmtch i cs s = some s2 →
      primInv (max mtch.length nmtch.length) s2 := by
  intro cs
  induction cs with
  | nil =>
      intro i s s2 hs h
      simp only [primaryAux, Option.some.injEq] at h
      subst h
      exact hs
  | cons c cs ih =>
      intro i s s2 hs h
      simp only [primaryAux] at h
      rcases hstep : primaryStep band mtch nmtch i c s with _ | s3
      · rw [hstep] at h
        exact Option.noConfusion h
      · rw [hstep] at h
        exact ih (i + 1) s3 s2 (primaryStep_inv band mtch nmtch i c hs hstep) h

/-- The `_primary` output invariants: ordered counters, match count no
larger than the longer candidate form, non-negative density, zero
density on an empty candidate, and density at most 1 whenever the
case-folded candidate is no longer than the original. -/
theorem primary_props (band : ℕ) (cword mtch nmtch : List Char) (m : MatchMetrics)
    (h : primary band cword mtch nmtch = some m) :
    m.prefix_matches ≤ m.num_matches ∧ m.consecutive_matches ≤ m.num_matches ∧
    m.num_matches ≤ max mtch.length nmtch.length ∧ 0 ≤ m.match_density ∧
    (mtch = [] → m.match_density = 0) ∧
    (nmtch.length ≤ mtch.length → m.match_density ≤ 1) := by
  unfold primary at h
  rcases haux : primaryAux band mtch nmtch 0 cword initPrim with _ | s
  · rw [haux] at h
    exact Option.noConfusion h
  · rw [haux] at h
    simp only [Option.map_some', Option.some.injEq] at h
    subst h
    have hinv := primaryAux_inv band mtch nmtch cword 0 initPrim s
      (by simp [primInv, initPrim]) haux
    obtain ⟨hp, hc, hn, hi⟩ := hinv
    dsimp only
    refine ⟨hp, hc, by omega, ?_, ?_, ?_⟩
    · by_cases hm : mtch.isEmpty
      · rw [if_pos hm]
      · rw [if_neg hm]
        positivity
    · intro hm
      subst hm
      simp
    · intro hle
      by_cases hm : mtch.isEmpty
      · rw [if_pos hm]
        norm_num
      · rw [if_neg hm]
        have hlen : 0 < mtch.length := by
          cases mtch
          · simp at hm
          · simp
        rw [div_le_one (by exact_mod_cast hlen)]
        have : s.num_matches ≤ mtch.length := by omega
        exact_mod_cast this

/-- The `Weights` dataclass: the eight named score dimensions, in
dataclass field order (the `asdict` iteration order). -/
structure Weights where
  alphabetical : ℚ
  consecutive_matches : ℚ
  count_by_filetype : ℚ
  insertion_order : ℚ
  match_density : ℚ
  nearest_neighbour : ℚ
  num_matches : ℚ
  prefix_matches : ℚ
deriving Repr, DecidableEq

/-- `_ZERO`: the all-zero `Weights`. -/
def zeroW : Weights := ⟨0, 0, 0, 0, 0, 0, 0, 0⟩

/-- Elementwise sum of two weight vectors (the `acc[key] += val` loop of
`_cum`). -/
def addW (x y : Weights) : Weights :=
  ⟨x.alphabetical + y.alphabetical, x.consecutive_matches + y.consecutive_matches,
   x.count_by_filetype + y.count_by_filetype, x.insertion_order + y.insertion_order,
   x.match_density + y.match_density, x.nearest_neighbour + y.nearest_neighbour,
   x.num_matches + y.num_matches, x.prefix_matches + y.prefix_matches⟩

/-- Elementwise product of two weight vectors (the `acc[key] *= val`
loop of `_cum`). -/
def mulW (x y : Weights) : Weights :=
  ⟨x.alphabetical * y.alphabetical, x.consecutive_matches * y.consecutive_matches,
   x.count_by_filetype * y.count_by_filetype, x.insertion_order * y.insertion_order,
   x.match_density * y.match_density, x.nearest_neighbour * y.nearest_neighbour,
   x.num_matches * y.num_matches, x.prefix_matches * y.prefix_matches⟩

/-- The per-candidate usage metrics returned by the history store
(`SqlMetrics`): frequency by file type, insertion-order rank, and line
distance to the cursor. -/
structure SqlMetrics where
  ft_count : ℚ
  insertion_order : ℚ
  line_diff : ℚ
deriving Repr, DecidableEq

/-- `_weights`: combine one candidate's `SqlMetrics` and `_MatchMetrics`
into a `Weights` vector, with `alphabetical` fixed at 0. -/
def mkWeight (sql : SqlMetrics) (m : MatchMetrics) : Weights :=
  { alphabetical := 0
    consecutive_matches := m.consecutive_matches
    count_by_filetype := sql.ft_count
    insertion_order := sql.insertion_order
    match_density := m.match_density
    nearest_neighbour := sql.line_diff
    num_matches := m.num_matches
    prefix_matches := m.prefix_matches }

/-- `_cum(adjustment, weights)`: elementwise-sum all weight vectors
starting from `_ZERO`, then elementwise-multiply by the configured
adjustment. -/
def cumW (adjustment : Weights) (ws : List Weights) : Weights :=
  mulW (ws.foldl addW zeroW) adjustment

/-- A name for each of the eight `Weights` dimensions. -/
inductive Dim
  | alphabetical
  | consecutive_matches
  | count_by_filetype
  | insertion_order
  | match_density
  | nearest_neighbour
  | num_matches
  | prefix_matches
deriving Repr, DecidableEq

/-- Read one dimension of a weight vector. -/
def getDim (d : Dim) (w : Weights) : ℚ :=
  match d with
  | .alphabetical => w.alphabetical
  | .consecutive_matches => w.consecutive_matches
  | .count_by_filetype => w.count_by_filetype
  | .insertion_order => w.insertion_order
  | .match_density => w.match_density
  | .nearest_neighbour => w.nearest_neighbour
  | .num_matches => w.num_matches
  | .prefix_matches => w.prefix_matches

/-- Replace one dimension of a weight vector. -/
def setDim (d : Dim) (w : Weights) (x : ℚ) : Weights :=
  match d with
  | .alphabetical => { w with alphabetical := x }
  | .consecutive_matches => { w with consecutive_matches := x }
  | .count_by_filetype => { w with count_by_filetype := x }
  | .insertion_order => { w with insertion_order := x }
  | .match_density => { w with match_density := x }
  | .nearest_neighbour => { w with nearest_neighbour := x }
  | .num_matches => { w with num_matches := x }
  | .prefix_matches => { w with prefix_matches := x }

/-- The `asdict` iteration order of `Weights`. -/
def allDims : List Dim :=
  [.alphabetical, .consecutive_matches, .count_by_filetype, .insertion_order,
   .match_density, .nearest_neighbour, .num_matches, .prefix_matches]

/-- `key_by` in `_sorted`: the scalar score of one candidate, the sum
over all dimensions of `val / adjustment[key] if adjustment[key] else
0`. -/
def keyBy (cum : Weights) (w : Weights) : ℚ :=
  (allDims.map fun d => if getDim d cum = 0 then 0 else getDim d w / getDim d cum).sum

/-- `_sorted`: Python's stable `sorted(it, key=key_by, reverse=True)`,
modelled as the stable `List.mergeSort` under descending score. -/
def sortedW {α : Type} (cum : Weights) (l : List (α × Weights)) : List (α × Weights) :=
  l.mergeSort (fun p q => decide (keyBy cum q.2 ≤ keyBy cum p.2))

/-- One candidate (`Completion`), reduced to what the scorers read: its
primary replacement text, the case-folded form (`new_text.casefold()`,
supplied as data because Unicode case folding is an environment
function), and the result of the `is_word(match[:1], ...)` context
selection test. -/
structure Comp where
  text : List Char
  ntext : List Char
  wordStart : Bool
deriving Repr, DecidableEq

/-- The four context strings `_metrics` reads off the `Context` record:
the word run and symbol run before the cursor, each with its case-folded
form. -/
structure Ctx where
  words_before : List Char
  n_words_before : List Char
  syms_before : List Char
  n_syms_before : List Char
deriving Repr, DecidableEq

/-- `_metrics` for one completion: select the word or symbol context by
`is_word(match[:1])`, try `_primary`, and on `_ToleranceExceeded` fall
back to `_secondary` on the case-folded context and candidate. -/
def metricsFor (band : ℕ) (ctx : Ctx) (cmp : Comp) : MatchMetrics :=
  match primary band (if cmp.wordStart then ctx.words_before else ctx.syms_before)
      cmp.text cmp.ntext with
  | some m => m
  | none => secondary (if cmp.wordStart then ctx.n_words_before else ctx.n_syms_before) cmp.ntext

/-- `rank`: compute match metrics for every completion, join them with
the usage metrics, combine (`_weights`), normalise (`_cum` with the
configured `RankingWeights`), sort (`_sorted`), and project the
completions.  The thread-pool launch, the database query and the
diagnostic log write are elided: the usage metrics arrive as the
`sqls` argument. -/
def rank (band : ℕ) (adjustment : Weights) (ctx : Ctx) (sqls : List SqlMetrics)
    (comps : List Comp) : List Comp :=
  let mm := comps.map (metricsFor band ctx)
  let metrics := comps.zip (sqls.zip mm)
  let individual := metrics.map fun x => (x.1, mkWeight x.2.1 x.2.2)
  let cum := cumW adjustment (individual.map Prod.snd)
  let ordered := sortedW cum individual
  ordered.map Prod.fst

theorem cumW_zero_adjustment (ws : List Weights) : cumW zeroW ws = zeroW := by
  simp [cumW, mulW, zeroW]

theorem keyBy_zero_cum (w : Weights) : keyBy zeroW w = 0 := by
  simp [keyBy, allDims, getDim, zeroW]

theorem keyLe_trans {α : Type} (cum : Weights) :
    ∀ (p q r : α × Weights),
      decide (keyBy cum q.2 ≤ keyBy cum p.2) = true →
      decide (keyBy cum r.2 ≤ keyBy cum q.2) = true →
      decide (keyBy cum r.2 ≤ keyBy cum p.2) = true := by
  intro p q r h1 h2
  simp only [decide_eq_true_eq] at h1 h2 ⊢
  exact le_trans h2 h1

theorem keyLe_total {α : Type} (cum : Weights) :
    ∀ (p q : α × Weights),
      (decide (keyBy cum q.2 ≤ keyBy cum p.2) || decide (keyBy cum p.2 ≤ keyBy cum q.2)) = true := by
  intro p q
  simp only [Bool.or_eq_true, decide_eq_true_eq]
  exact le_total _ _

/-- A list whose scores are all equal is already sorted, so the stable
sort returns it unchanged. -/
theorem sortedW_all_equal {α : Type} (cum : Weights) (l : List (α × Weights))
    (h : ∀ p ∈ l, ∀ q ∈ l, keyBy cum q.2 ≤ keyBy cum p.2) : sortedW cum l = l := by
  unfold sortedW
  apply List.mergeSort_of_sorted
  exact List.pairwise_of_forall_mem_list fun p hp q hq => by
    simp only [decide_eq_true_eq]
    exact h p hp q hq

theorem rank_individual_fst (band : ℕ) (ctx : Ctx) (sqls : List SqlMetrics)
    (comps : List Comp) (h : comps.length ≤ sqls.length) :
    List.map Prod.fst
      (List.map (fun x => (x.1, mkWeight x.2.1 x.2.2))
        (comps.zip (sqls.zip (comps.map (metricsFor band ctx))))) = comps := by
  rw [List.map_map]
  have hcomp : (Prod.fst ∘ fun x : Comp × SqlMetrics × MatchMetrics =>
      (x.1, mkWeight x.2.1 x.2.2)) = Prod.fst := rfl
  rw [hcomp]
  apply List.map_fst_zip
  rw [List.length_zip, List.length_map]
  omega

/-- Claim C1: `_sorted` returns the candidates ordered by descending
scalar score; whenever two entries have equal scores, their relative
input order is kept (any pair-in-order of equal score stays a sublist of
the output); and when all eight `RankingWeights` are 0 the cumulative
vector is all-zero, every score is 0, and `rank` returns the input order
exactly. -/
theorem claim1_sorted_stable_zero {α : Type} :
    (∀ (cum : Weights) (l : List (α × Weights)),
        (sortedW cum l).Perm l ∧
        (sortedW cum l).Pairwise (fun p q => keyBy cum q.2 ≤ keyBy cum p.2)) ∧
    (∀ (cum : Weights) (l : List (α × Weights)) (a b : α × Weights),
        keyBy cum a.2 = keyBy cum b.2 → [a, b].Sublist l →
        [a, b].Sublist (sortedW cum l)) ∧
    (∀ (ws : List Weights) (w : Weights), keyBy (cumW zeroW ws) w = 0) ∧
    (∀ (band : ℕ) (ctx : Ctx) (sqls : List SqlMetrics) (comps : List Comp),
        comps.length ≤ sqls.length → rank band zeroW ctx sqls comps = comps) := by
  refine ⟨?_, ?_, ?_, ?_⟩
  · intro cum l
    constructor
    · exact List.mergeSort_perm l _
    · have hs := List.sorted_mergeSort (keyLe_trans cum) (keyLe_total cum) l
      exact hs.imp (by intro a b hab; simpa using hab)
  · intro cum l a b hkey hsub
    apply List.sublist_mergeSort (keyLe_trans cum) (keyLe_total cum) ?_ hsub
    refine List.Pairwise.cons ?_ (List.pairwise_singleton _ _)
    intro x hx
    simp only [List.mem_singleton] at hx
    subst hx
    simp only [decide_eq_true_eq]
    rw [hkey]
  · intro ws w
    rw [cumW_zero_adjustment, keyBy_zero_cum]
  · intro band ctx sqls comps h
    simp only [rank]
    rw [cumW_zero_adjustment]
    rw [sortedW_all_equal zeroW _ (fun p _ q _ => by rw [keyBy_zero_cum, keyBy_zero_cum])]
    exact rank_individual_fst band ctx sqls comps h

/-- Witness for C1 at concrete inputs: stability on a two-element tie
and identity order under all-zero ranking weights. -/
theorem claim1_witness :
    ([((0 : ℕ), zeroW), (1, zeroW)].Sublist
      (sortedW (cumW zeroW [zeroW, zeroW]) [((0 : ℕ), zeroW), (1, zeroW)])) ∧
    rank 1 zeroW ⟨[], [], [], []⟩ [⟨1, 1, 1⟩] [⟨[], [], false⟩] = [⟨[], [], false⟩] := by
  constructor
  · exact (@claim1_sorted_stable_zero ℕ).2.1 (cumW zeroW [zeroW, zeroW])
      [((0 : ℕ), zeroW), (1, zeroW)] (0, zeroW) (1, zeroW) rfl (List.Sublist.refl _)
  · exact (@claim1_sorted_stable_zero ℕ).2.2.2 1 ⟨[], [], [], []⟩ [⟨1, 1, 1⟩] [⟨[], [], false⟩]
      (by simp)

theorem getDim_addW (d : Dim) (x y : Weights) :
    getDim d (addW x y) = getDim d x + getDim d y := by
  cases d <;> rfl

theorem getDim_mulW (d : Dim) (x y : Weights) :
    getDim d (mulW x y) = getDim d x * getDim d y := by
  cases d <;> rfl

theorem getDim_foldl_zero (d : Dim) :
    ∀ (ws : List Weights) (acc : Weights), getDim d acc = 0 →
      (∀ v ∈ ws, getDim d v = 0) → getDim d (ws.foldl addW acc) = 0 := by
  intro ws
  induction ws with
  | nil =>
      intro acc hacc _
      simpa using hacc
  | cons v rest ih =>
      intro acc hacc hall
      simp only [List.foldl_cons]
      refine ih (addW acc v) ?_ (fun q hq => hall q (by simp [hq]))
      rw [getDim_addW, hacc, hall v (by simp)]
      norm_num

theorem keyBy_setDim (d : Dim) (cum w : Weights) (x : ℚ) (h : getDim d cum = 0) :
    keyBy cum (setDim d w x) = keyBy cum w := by
  cases d <;> simp_all [keyBy, allDims, getDim, setDim]

/-- Claim C7: a `WeightVector` dimension whose cumulative value is 0
contributes exactly 0 to every candidate's score (the score does not
depend on the candidate's value in that dimension), and a dimension in
which every candidate has 0 has cumulative value 0 regardless of the
configured adjustment. -/
theorem claim7_zero_cum_dim :
    (∀ (d : Dim) (cum w : Weights) (x : ℚ), getDim d cum = 0 →
        keyBy cum (setDim d w x) = keyBy cum w) ∧
    (∀ (d : Dim) (adj : Weights) (ws : List Weights),
        (∀ v ∈ ws, getDim d v = 0) → getDim d (cumW adj ws) = 0) := by
  constructor
  · intro d cum w x h
    exact keyBy_setDim d cum w x h
  · intro d adj ws hall
    unfold cumW
    rw [getDim_mulW]
    rw [getDim_foldl_zero d ws zeroW (by cases d <;> rfl) hall]
    norm_num

/-- Witness for C7 at concrete inputs. -/
theorem claim7_witness :
    keyBy zeroW (setDim Dim.num_matches zeroW 5) = keyBy zeroW zeroW ∧
    getDim Dim.num_matches (cumW ⟨1, 1, 1, 1, 1, 1, 1, 1⟩ [zeroW]) = 0 := by
  constructor
  · exact claim7_zero_cum_dim.1 Dim.num_matches zeroW zeroW 5 rfl
  · exact claim7_zero_cum_dim.2 Dim.num_matches ⟨1, 1, 1, 1, 1, 1, 1, 1⟩ [zeroW]
      (by intro v hv; simp only [List.mem_singleton] at hv; subst hv; rfl)

theorem primaryStep_none_iff (band : ℕ) (mtch nmtch : List Char) (i : ℕ) (c : Char)
    (s : PrimState) :
    primaryStep band mtch nmtch i c s = none ↔ band < i ∧ s.num_matches = 0 := by
  unfold primaryStep
  by_cases h : band < i ∧ s.num_matches = 0
  · rw [if_pos h]
    simpa using h
  · rw [if_neg h]
    constructor
    · intro hh
      rcases hfind : findCharIn (if c.isUpper then mtch else nmtch) c s.idx (s.idx + band)
        with _ | m
      · simp [hfind] at hh
      · simp [hfind] at hh
    · intro hh
      exact absurd hh h

/-- `_primary` aborts on a character list exactly when some scan prefix
ends at an index `i > transpose_band` (relative to the start) still
holding zero matches. -/
theorem primaryAux_none_iff (band : ℕ) (mtch nmtch : List Char) :
    ∀ (cs : List Char) (i : ℕ) (s : PrimState),
      primaryAux band mtch nmtch i cs s = none ↔
      ∃ k s2, k < cs.length ∧ band < i + k ∧
        primaryAux band mtch nmtch i (cs.take k) s = some s2 ∧ s2.num_matches = 0 := by
  intro cs
  induction cs with
  | nil =>
      intro i s
      constructor
      · intro h
        exact absurd h (by simp [primaryAux])
      · rintro ⟨k, s2, hk, _⟩
        simp at hk
  | cons c cs ih =>
      intro i s
      rcases hstep : primaryStep band mtch nmtch i c s with _ | s3
      · have hg := (primaryStep_none_iff band mtch nmtch i c s).mp hstep
        constructor
        · intro _
          exact ⟨0, s, by simp, by omega, by simp [primaryAux], hg.2⟩
        · intro _
          simp [primaryAux, hstep]
      · constructor
        · intro h
          simp only [primaryAux, hstep] at h
          obtain ⟨k, s2, hk, hb, htake, hnum⟩ := (ih (i + 1) s3).mp h
          refine ⟨k + 1, s2, by simpa using hk, by omega, ?_, hnum⟩
          simp only [List.take_succ_cons, primaryAux, hstep]
          exact htake
        · rintro ⟨k, s2, hk, hb, htake, hnum⟩
          match k with
          | 0 =>
              simp only [List.take_zero, primaryAux, Option.some.injEq] at htake
              subst htake
              have hnone : primaryStep band mtch nmtch i c s = none :=
                (primaryStep_none_iff band mtch nmtch i c s).mpr ⟨by omega, hnum⟩
              rw [hnone] at hstep
              exact Option.noConfusion hstep
          | k + 1 =>
              simp only [List.take_succ_cons, primaryAux, hstep] at htake
              have hrec := (ih (i + 1) s3).mpr
                ⟨k, s2, by simpa using hk, by omega, htake, hnum⟩
              simp [primaryAux, hstep, hrec]

/-- Claim C2: `_primary` signals `_ToleranceExceeded` iff its scan
reaches some index `i > transpose_band` of `cword` with zero matches so
far; when it does, `_metrics` answers with `_secondary` on the
case-folded context and candidate, so the signal never escapes the
caller. -/
theorem claim2_tolerance_escape (band : ℕ) (ctx : Ctx) (cmp : Comp)
    (cword mtch nmtch : List Char) :
    (primary band cword mtch nmtch = none ↔
      ∃ i s2, i < cword.length ∧ band < i ∧
        primaryAux band mtch nmtch 0 (cword.take i) initPrim = some s2 ∧
        s2.num_matches = 0) ∧
    (primary band (if cmp.wordStart then ctx.words_before else ctx.syms_before)
        cmp.text cmp.ntext = none →
      metricsFor band ctx cmp =
        secondary (if cmp.wordStart then ctx.n_words_before else ctx.n_syms_before)
          cmp.ntext) := by
  constructor
  · unfold primary
    rw [Option.map_eq_none']
    rw [primaryAux_none_iff band mtch nmtch cword 0 initPrim]
    constructor
    · rintro ⟨k, s2, hk, hb, htake, hnum⟩
      exact ⟨k, s2, hk, by omega, htake, hnum⟩
    · rintro ⟨i, s2, hi, hb, htake, hnum⟩
      exact ⟨i, s2, hi, by omega, htake, hnum⟩
  · intro h
    unfold metricsFor
    rw [h]

/-- Witness for C2: `transpose_band = 0`, context `"ab"`, an empty
candidate: the scan reaches index 1 with no match and escapes to the
fallback. -/
theorem claim2_witness :
    primary 0 ['a', 'b'] [] [] = none ∧
    metricsFor 0 ⟨['a', 'b'], ['a', 'b'], [], []⟩ ⟨[], [], true⟩ =
      secondary ['a', 'b'] [] := by
  have h : primary 0 ['a', 'b'] [] [] = none := by
    simp [primary, primaryAux, primaryStep, findCharIn, findCharAux, initPrim]
  exact ⟨h, (claim2_tolerance_escape 0 ⟨['a', 'b'], ['a', 'b'], [], []⟩ ⟨[], [], true⟩
    ['a', 'b'] [] []).2 h⟩

theorem primaryAux_short (band : ℕ) (mtch nmtch : List Char) :
    ∀ (cs : List Char) (i : ℕ) (s : PrimState), i + cs.length ≤ band + 1 →
      primaryAux band mtch nmtch i cs s ≠ none := by
  intro cs
  induction cs with
  | nil =>
      intro i s _
      simp [primaryAux]
  | cons c cs ih =>
      intro i s h
      rcases hstep : primaryStep band mtch nmtch i c s with _ | s3
      · have hg := (primaryStep_none_iff band mtch nmtch i c s).mp hstep
        simp only [List.length_cons] at h
        exact absurd hg.1 (by omega)
      · simp only [primaryAux, hstep]
        refine ih (i + 1) s3 ?_
        simp only [List.length_cons] at h
        omega

/-- Claim C10: when the selected preceding context has length at most
`transpose_band + 1`, the escape index `i > transpose_band` is never
reached, so `_primary` completes normally and `_metrics` never invokes
the fallback for that candidate. -/
theorem claim10_short_context_no_escape (band : ℕ) (ctx : Ctx) (cmp : Comp)
    (h : (if cmp.wordStart then ctx.words_before else ctx.syms_before).length ≤ band + 1) :
    ∃ m, primary band (if cmp.wordStart then ctx.words_before else ctx.syms_before)
        cmp.text cmp.ntext = some m ∧
      metricsFor band ctx cmp = m := by
  have hne : primaryAux band cmp.text cmp.ntext 0
      (if cmp.wordStart then ctx.words_before else ctx.syms_before) initPrim ≠ none := by
    refine primaryAux_short band cmp.text cmp.ntext _ 0 initPrim ?_
    omega
  rcases haux : primaryAux band cmp.text cmp.ntext 0
      (if cmp.wordStart then ctx.words_before else ctx.syms_before) initPrim with _ | s
  · exact absurd haux hne
  · exact ⟨{ prefix_matches := s.prefix_matches
             match_density := if cmp.text.isEmpty then 0 else (s.num_matches : ℚ) / cmp.text.length
             consecutive_matches := s.consecutive_matches
             num_matches := s.num_matches },
      by unfold primary; rw [haux]; rfl,
      by unfold metricsFor primary; rw [haux]; rfl⟩

/-- Witness for C10: a two-character context with `transpose_band = 1`
and a non-matching candidate still resolves through the primary path. -/
theorem claim10_witness :
    ((if (⟨['x'], ['x'], true⟩ : Comp).wordStart
        then (⟨['a', 'b'], ['a', 'b'], [], []⟩ : Ctx).words_before
        else (⟨['a', 'b'], ['a', 'b'], [], []⟩ : Ctx).syms_before).length ≤ 1 + 1) ∧
    ∃ m, primary 1 (if (⟨['x'], ['x'], true⟩ : Comp).wordStart
        then (⟨['a', 'b'], ['a', 'b'], [], []⟩ : Ctx).words_before
        else (⟨['a', 'b'], ['a', 'b'], [], []⟩ : Ctx).syms_before)
        (⟨['x'], ['x'], true⟩ : Comp).text (⟨['x'], ['x'], true⟩ : Comp).ntext = some m ∧
      metricsFor 1 ⟨['a', 'b'], ['a', 'b'], [], []⟩ ⟨['x'], ['x'], true⟩ = m :=
  ⟨by simp, claim10_short_context_no_escape 1 ⟨['a', 'b'], ['a', 'b'], [], []⟩
    ⟨['x'], ['x'], true⟩ (by simp)⟩

theorem findCharAux_none_iff (c : Char) (stop : ℕ) :
    ∀ (l : List Char) (k : ℕ), (findCharAux l c k stop = none ↔
      ∀ j, k ≤ j → j < stop → l[j - k]? ≠ some c) := by
  intro l
  induction l with
  | nil =>
      intro k
      constructor
      · intro _ j _ _
        simp
      · intro _
        trivial
  | cons c0 rest ih =>
      intro k
      simp only [findCharAux]
      by_cases hstop : stop ≤ k
      · simp only [if_pos hstop]
        constructor
        · intro _ j hj1 hj2
          omega
        · intro _
          trivial
      · simp only [if_neg hstop]
        by_cases hc : c0 = c
        · simp only [if_pos hc]
          constructor
          · intro h
            exact absurd h (by simp)
          · intro h
            exfalso
            refine h k (le_refl _) (by omega) ?_
            rw [Nat.sub_self]
            simpa using hc
        · simp only [if_neg hc]
          rw [ih (k + 1)]
          constructor
          · intro h j hj1 hj2
            by_cases hjk : j = k
            · subst hjk
              rw [Nat.sub_self]
              simpa using hc
            · have := h j (by omega) hj2
              rw [show j - k = (j - (k + 1)) + 1 from by omega, List.getElem?_cons_succ]
              exact this
          · intro h j hj1 hj2
            have := h j (by omega) hj2
            rw [show j - k = (j - (k + 1)) + 1 from by omega, List.getElem?_cons_succ] at this
            exact this

/-- The bounded search returns `none` exactly when no index of the
half-open window `[start, stop)` holds `c`. -/
theorem findCharIn_none_iff (target : List Char) (c : Char) (start stop : ℕ) :
    findCharIn target c start stop = none ↔
      ∀ j, start ≤ j → j < stop → target[j]? ≠ some c := by
  unfold findCharIn
  rw [findCharAux_none_iff]
  constructor
  · intro h j hj1 hj2
    have := h j hj1 hj2
    rw [List.getElem?_drop, show start + (j - start) = j from by omega] at this
    exact this
  · intro h j hj1 hj2
    rw [List.getElem?_drop, show start + (j - start) = j from by omega]
    exact h j hj1 hj2

/-- Claim C3: in every non-escaping iteration of `_primary`, the search
target is the original-case text for an uppercase character and the
case-folded text otherwise; the bounded search returns the first
occurrence of the character in the half-open window
`[idx, idx + transpose_band)` (or nothing when the window holds none);
and a hit at `m` increments `num_matches`, increments
`consecutive_matches` exactly when `m = pm_idx + 1`, then sets
`pm_idx = m` and `idx = m + 1`. -/
theorem claim3_iteration_semantics (band : ℕ) (mtch nmtch : List Char) (i : ℕ) (c : Char)
    (s : PrimState) (hguard : ¬(band < i ∧ s.num_matches = 0)) :
    ∃ s2, primaryStep band mtch nmtch i c s = some s2 ∧
      (∀ m, findCharIn (if c.isUpper then mtch else nmtch) c s.idx (s.idx + band) = some m →
        (s.idx ≤ m ∧ m < s.idx + band ∧ m < (if c.isUpper then mtch else nmtch).length ∧
          (if c.isUpper then mtch else nmtch)[m]? = some c ∧
          ∀ j, s.idx ≤ j → j < m → (if c.isUpper then mtch else nmtch)[j]? ≠ some c) ∧
        s2.num_matches = s.num_matches + 1 ∧
        s2.consecutive_matches =
          s.consecutive_matches + (if isConsecutive s.pm_idx m then 1 else 0) ∧
        (isConsecutive s.pm_idx m = true ↔ ∃ p, s.pm_idx = some p ∧ m = p + 1) ∧
        s2.pm_idx = some m ∧ s2.idx = m + 1) ∧
      (findCharIn (if c.isUpper then mtch else nmtch) c s.idx (s.idx + band) = none →
        s2 = { s with prefix_broken := true } ∧
        ∀ j, s.idx ≤ j → j < s.idx + band →
          (if c.isUpper then mtch else nmtch)[j]? ≠ some c) := by
  rcases hfind : findCharIn (if c.isUpper then mtch else nmtch) c s.idx (s.idx + band)
    with _ | m0
  · refine ⟨{ s with prefix_broken := true }, ?_, ?_, ?_⟩
    · unfold primaryStep
      rw [if_neg hguard]
      simp [hfind]
    · intro m hm
      exact Option.noConfusion hm
    · intro _
      exact ⟨rfl, (findCharIn_none_iff _ c s.idx (s.idx + band)).mp hfind⟩
  · refine ⟨{ idx := m0 + 1
              prefix_broken := s.prefix_broken || decide (m0 ≠ i)
              pm_idx := some m0
              prefix_matches :=
                s.prefix_matches + (if s.prefix_broken || decide (m0 ≠ i) then 0 else 1)
              consecutive_matches :=
                s.consecutive_matches + (if isConsecutive s.pm_idx m0 then 1 else 0)
              num_matches := s.num_matches + 1 }, ?_, ?_, ?_⟩
    · unfold primaryStep
      rw [if_neg hguard]
      simp only [hfind]
    · intro m hm
      simp only [Option.some.injEq] at hm
      subst hm
      have hchar := (findCharIn_some_iff _ c s.idx (s.idx + band) m0).mp hfind
      refine ⟨⟨hchar.1, hchar.2.1, hchar.2.2.1, hchar.2.2.2.1, hchar.2.2.2.2⟩,
        rfl, rfl, ?_, rfl, rfl⟩
      unfold isConsecutive
      cases hpm : s.pm_idx with
      | none => simp
      | some p =>
          simp only [beq_iff_eq, Option.some.injEq]
          constructor
          · intro h
            exact ⟨p, rfl, h.symm⟩
          · rintro ⟨q, hq, hm⟩
            cases hq
            omega
    · intro hm
      exact Option.noConfusion hm

/-- Witness for C3: a concrete non-escaping iteration with a hit. -/
theorem claim3_witness :
    (¬(1 < 0 ∧ initPrim.num_matches = 0)) ∧
    ∃ s2, primaryStep 1 ['a'] ['a'] 0 'a' initPrim = some s2 ∧
      (∀ m, findCharIn (if 'a'.isUpper then ['a'] else ['a']) 'a'
          initPrim.idx (initPrim.idx + 1) = some m →
        (initPrim.idx ≤ m ∧ m < initPrim.idx + 1 ∧
          m < (if 'a'.isUpper then ['a'] else ['a']).length ∧
          (if 'a'.isUpper then ['a'] else ['a'])[m]? = some 'a' ∧
          ∀ j, initPrim.idx ≤ j → j < m →
            (if 'a'.isUpper then ['a'] else ['a'])[j]? ≠ some 'a') ∧
        s2.num_matches = initPrim.num_matches + 1 ∧
        s2.consecutive_matches =
          initPrim.consecutive_matches + (if isConsecutive initPrim.pm_idx m then 1 else 0) ∧
        (isConsecutive initPrim.pm_idx m = true ↔
          ∃ p, initPrim.pm_idx = some p ∧ m = p + 1) ∧
        s2.pm_idx = some m ∧ s2.idx = m + 1) ∧
      (findCharIn (if 'a'.isUpper then ['a'] else ['a']) 'a'
          initPrim.idx (initPrim.idx + 1) = none →
        s2 = { initPrim with prefix_broken := true } ∧
        ∀ j, initPrim.idx ≤ j → j < initPrim.idx + 1 →
          (if 'a'.isUpper then ['a'] else ['a'])[j]? ≠ some 'a') :=
  ⟨by simp [initPrim], claim3_iteration_semantics 1 ['a'] ['a'] 0 'a' initPrim
    (by simp [initPrim])⟩

/-- The number of leading `_primary` iterations whose bounded search
hits exactly the expected position (`m = i`), following the run itself:
the count stops at the first iteration that misses or hits elsewhere,
and at an escape. -/
def leadingExact (band : ℕ) (mtch nmtch : List Char) : ℕ → List Char → PrimState → ℕ
  | _, [], _ => 0
  | i, c :: cs, s =>
      match primaryStep band mtch nmtch i c s with
      | none => 0
      | some s2 =>
          if findCharIn (if c.isUpper then mtch else nmtch) c s.idx (s.idx + band) = some i
          then 1 + leadingExact band mtch nmtch (i + 1) cs s2
          else 0

/-- Once `prefix_broken` is set, the rest of the scan never changes
`prefix_matches` (and the flag stays set). -/
theorem primaryAux_broken_freezes (band : ℕ) (mtch nmtch : List Char) :
    ∀ (cs : List Char) (i : ℕ) (s s2 : PrimState), s.prefix_broken = true →
      primaryAux band mtch nmtch i cs s = some s2 →
      s2.prefix_matches = s.prefix_matches := by
  intro cs
  induction cs with
  | nil =>
      intro i s s2 _ h
      simp only [primaryAux, Option.some.injEq] at h
      subst h
      rfl
  | cons c cs ih =>
      intro i s s2 hbroken h
      rcases hstep : primaryStep band mtch nmtch i c s with _ | s3
      · rw [primaryAux, hstep] at h
        exact Option.noConfusion h
      · rw [primaryAux, hstep] at h
        have hguard : ¬(band < i ∧ s.num_matches = 0) := by
          intro hg
          rw [(primaryStep_none_iff band mtch nmtch i c s).mpr hg] at hstep
          exact Option.noConfusion hstep
        have hs3 : s3.prefix_matches = s.prefix_matches ∧ s3.prefix_broken = true := by
          unfold primaryStep at hstep
          rw [if_neg hguard] at hstep
          rcases hfind : findCharIn (if c.isUpper then mtch else nmtch) c s.idx (s.idx + band)
            with _ | m
          · simp only [hfind, Option.some.injEq] at hstep
            subst hstep
            exact ⟨rfl, rfl⟩
          · simp only [hfind, Option.some.injEq] at hstep
            subst hstep
            simp [hbroken]
        rw [ih (i + 1) s3 s2 hs3.2 h, hs3.1]

/-- While the prefix is unbroken, `prefix_matches` grows by exactly the
number of leading exact-position hits. -/
theorem primaryAux_prefix_eq (band : ℕ) (mtch nmtch : List Char) :
    ∀ (cs : List Char) (i : ℕ) (s s2 : PrimState), s.prefix_broken = false →
      primaryAux band mtch nmtch i cs s = some s2 →
      s2.prefix_matches = s.prefix_matches + leadingExact band mtch nmtch i cs s := by
  intro cs
  induction cs with
  | nil =>
      intro i s s2 _ h
      simp only [primaryAux, Option.some.injEq] at h
      subst h
      simp [leadingExact]
  | cons c cs ih =>
      intro i s s2 hunbroken h
      rcases hstep : primaryStep band mtch nmtch i c s with _ | s3
      · rw [primaryAux, hstep] at h
        exact Option.noConfusion h
      · have hrec : primaryAux band mtch nmtch (i + 1) cs s3 = some s2 := by
          rw [primaryAux, hstep] at h
          exact h
        have hguard : ¬(band < i ∧ s.num_matches = 0) := by
          intro hg
          rw [(primaryStep_none_iff band mtch nmtch i c s).mpr hg] at hstep
          exact Option.noConfusion hstep
        have hlead : leadingExact band mtch nmtch i (c :: cs) s =
            if findCharIn (if c.isUpper then mtch else nmtch) c s.idx (s.idx + band) = some i
            then 1 + leadingExact band mtch nmtch (i + 1) cs s3
            else 0 := by
          simp only [leadingExact, hstep]
        rw [hlead]
        unfold primaryStep at hstep
        rw [if_neg hguard] at hstep
        rcases hfind : findCharIn (if c.isUpper then mtch else nmtch) c s.idx (s.idx + band)
          with _ | m
        · simp only [hfind, Option.some.injEq] at hstep
          rw [if_neg (fun hh => Option.noConfusion hh)]
          subst hstep
          rw [primaryAux_broken_freezes band mtch nmtch cs (i + 1) _ s2 rfl hrec]
          simp
        · simp only [hfind, Option.some.injEq] at hstep
          by_cases hmi : m = i
          · subst hmi
            rw [if_pos rfl]
            subst hstep
            have hb : (s.prefix_broken || decide (m ≠ m)) = false := by
              simp [hunbroken]
            rw [ih (m + 1) _ s2 hb hrec]
            simp [hunbroken]
            omega
          · rw [if_neg (fun hh => hmi (Option.some.inj hh))]
            subst hstep
            have hb2 : (s.prefix_broken || decide (m ≠ i)) = true := by
              simp [hmi]
            rw [primaryAux_broken_freezes band mtch nmtch cs (i + 1) _ s2 hb2 hrec]
            simp [hmi]

/-- Claim C4: for a completed `_primary` run, `prefix_matches` equals
the number of leading iterations whose search hit exactly the expected
position `m = i`; and once `prefix_broken` is set by the first deviating
iteration, `prefix_matches` never increases again. -/
theorem claim4_prefix_tracking (band : ℕ) (mtch nmtch : List Char) :
    (∀ (cword : List Char) (m : MatchMetrics), primary band cword mtch nmtch = some m →
        m.prefix_matches = leadingExact band mtch nmtch 0 cword initPrim) ∧
    (∀ (cs : List Char) (i : ℕ) (s s2 : PrimState), s.prefix_broken = true →
        primaryAux band mtch nmtch i cs s = some s2 →
        s2.prefix_matches = s.prefix_matches) := by
  constructor
  · intro cword m h
    unfold primary at h
    rcases haux : primaryAux band mtch nmtch 0 cword initPrim with _ | s
    · rw [haux] at h
      exact Option.noConfusion h
    · rw [haux] at h
      simp only [Option.map_some', Option.some.injEq] at h
      subst h
      have := primaryAux_prefix_eq band mtch nmtch cword 0 initPrim s rfl haux
      simpa [initPrim] using this
  · exact primaryAux_broken_freezes band mtch nmtch

/-- Witness for C4: the `"fo"` versus `"foo"` run has two leading exact
hits, and a broken state stays frozen over a further scan. -/
theorem claim4_witness :
    (primary 3 ['f', 'o'] ['f', 'o', 'o'] ['f', 'o', 'o'] =
      some ⟨2, 2 / 3, 1, 2⟩ ∧
     (2 : ℕ) = leadingExact 3 ['f', 'o', 'o'] ['f', 'o', 'o'] 0 ['f', 'o'] initPrim) ∧
    (⟨0, true, none, 0, 0, 0⟩ : PrimState).prefix_broken = true ∧
    primaryAux 3 ['f', 'o', 'o'] ['f', 'o', 'o'] 0 ['x'] ⟨0, true, none, 0, 0, 0⟩ =
      some ⟨0, true, none, 0, 0, 0⟩ ∧
    (⟨0, true, none, 0, 0, 0⟩ : PrimState).prefix_matches =
      (⟨0, true, none, 0, 0, 0⟩ : PrimState).prefix_matches := by
  have hp : primary 3 ['f', 'o'] ['f', 'o', 'o'] ['f', 'o', 'o'] = some ⟨2, 2 / 3, 1, 2⟩ := by
    simp [primary, primaryAux, primaryStep, findCharIn, findCharAux, initPrim, isConsecutive]
  have haux : primaryAux 3 ['f', 'o', 'o'] ['f', 'o', 'o'] 0 ['x'] ⟨0, true, none, 0, 0, 0⟩ =
      some ⟨0, true, none, 0, 0, 0⟩ := by
    simp [primaryAux, primaryStep, findCharIn, findCharAux]
  refine ⟨⟨hp, ?_⟩, rfl, haux, ?_⟩
  · have h2 := (claim4_prefix_tracking 3 ['f', 'o', 'o'] ['f', 'o', 'o']).1 ['f', 'o']
      ⟨2, 2 / 3, 1, 2⟩ hp
    simpa using h2
  · exact (claim4_prefix_tracking 3 ['f', 'o', 'o'] ['f', 'o', 'o']).2 ['x'] 0
      ⟨0, true, none, 0, 0, 0⟩ ⟨0, true, none, 0, 0, 0⟩ rfl haux

/-- Counterexample to C5: Python `"ß".casefold() == "ss"`, so with
candidate text `"ß"` (case-folded `"ss"`) and context `"ss"`, `_primary`
matches both context characters inside the two-character case-folded
text but divides `num_matches = 2` by the original length 1:
`match_density = 2 > 1` on a non-empty candidate. -/
theorem claim5_counterexample :
    primary 10 ['s', 's'] ['ß'] ['s', 's'] = some ⟨2, 2, 1, 2⟩ ∧
    ¬((2 : ℚ) ≤ 1) ∧ (['ß'] : List Char) ≠ [] := by
  refine ⟨?_, by norm_num, by simp⟩
  simp [primary, primaryAux, primaryStep, findCharIn, findCharAux, initPrim, isConsecutive]

/-- Claim C5 (amended): both paths return ordered counters
(`prefix_matches ≤ num_matches`, `consecutive_matches ≤ num_matches`),
all fields non-negative, and density 0 on an empty candidate; the
fallback density always lies in `[0, 1]`, and the primary density lies
in `[0, 1]` whenever the case-folded candidate is no longer than the
original (it can exceed 1 when case folding lengthens the text, e.g.
`"ß" → "ss"`). -/
theorem claim5_metrics_invariants :
    (∀ (band : ℕ) (cword mtch nmtch : List Char) (m : MatchMetrics),
        primary band cword mtch nmtch = some m →
        m.prefix_matches ≤ m.num_matches ∧ m.consecutive_matches ≤ m.num_matches ∧
        0 ≤ m.match_density ∧ (mtch = [] → m.match_density = 0) ∧
        (nmtch.length ≤ mtch.length → m.match_density ≤ 1)) ∧
    (∀ (a b : List Char),
        (secondary a b).prefix_matches ≤ (secondary a b).num_matches ∧
        (secondary a b).consecutive_matches ≤ (secondary a b).num_matches ∧
        0 ≤ (secondary a b).match_density ∧
        (b = [] → (secondary a b).match_density = 0) ∧
        (b ≠ [] → (secondary a b).match_density ≤ 1)) := by
  constructor
  · intro band cword mtch nmtch m h
    obtain ⟨h1, h2, _, h4, h5, h6⟩ := primary_props band cword mtch nmtch m h
    exact ⟨h1, h2, h4, h5, h6⟩
  · intro a b
    obtain ⟨h1, h2, _, h4, h5, h6⟩ := secondary_props a b
    exact ⟨h1, h2, h4, h5, h6⟩

/-- Witness for C5 (amended) at concrete inputs: a completed primary run
with equal-length case folding, a primary run on an empty candidate, and
fallback runs on an empty and a non-empty candidate. -/
theorem claim5_witness :
    primary 1 ['a'] ['a'] ['a'] = some ⟨1, 1, 0, 1⟩ ∧
    ((⟨1, 1, 0, 1⟩ : MatchMetrics).prefix_matches ≤
        (⟨1, 1, 0, 1⟩ : MatchMetrics).num_matches ∧
      (⟨1, 1, 0, 1⟩ : MatchMetrics).consecutive_matches ≤
        (⟨1, 1, 0, 1⟩ : MatchMetrics).num_matches ∧
      0 ≤ (⟨1, 1, 0, 1⟩ : MatchMetrics).match_density ∧
      (⟨1, 1, 0, 1⟩ : MatchMetrics).match_density ≤ 1) ∧
    primary 1 ['a'] [] [] = some ⟨0, 0, 0, 0⟩ ∧
    (⟨0, 0, 0, 0⟩ : MatchMetrics).match_density = 0 ∧
    ((secondary ['a'] []).match_density = 0 ∧
      (secondary ['a'] ['b']).match_density ≤ 1) := by
  have hp1 : primary 1 ['a'] ['a'] ['a'] = some ⟨1, 1, 0, 1⟩ := by
    simp [primary, primaryAux, primaryStep, findCharIn, findCharAux, initPrim, isConsecutive]
  have hp0 : primary 1 ['a'] [] [] = some ⟨0, 0, 0, 0⟩ := by
    simp [primary, primaryAux, primaryStep, findCharIn, findCharAux, initPrim, isConsecutive]
  have h1 := claim5_metrics_invariants.1 1 ['a'] ['a'] ['a'] ⟨1, 1, 0, 1⟩ hp1
  have h0 := claim5_metrics_invariants.1 1 ['a'] [] [] ⟨0, 0, 0, 0⟩ hp0
  have hse := claim5_metrics_invariants.2 ['a'] []
  have hsn := claim5_metrics_invariants.2 ['a'] ['b']
  exact ⟨hp1, ⟨h1.1, h1.2.1, h1.2.2.1, h1.2.2.2.2 (by simp)⟩, hp0,
    h0.2.2.2.1 rfl, hse.2.2.2.1 rfl, hsn.2.2.2.2 (by simp)⟩

/-- An all-ones `RankingWeights` configuration, for concrete runs. -/
def oneW : Weights := ⟨1, 1, 1, 1, 1, 1, 1, 1⟩

/-- A malformed candidate: its required replacement text is empty. -/
def emptyComp : Comp := ⟨[], [], false⟩

/-- Counterexample to C6: `rank` performs no ingestion-time validation.
A candidate with empty replacement text is scored (its zero metrics
enter the cumulative sums) and returned, and an empty candidate set
yields an empty result rather than a failed request. -/
theorem claim6_counterexample :
    rank 1 oneW ⟨['a'], ['a'], ['a'], ['a']⟩ [⟨1, 1, 1⟩] [emptyComp] = [emptyComp] ∧
    rank 1 oneW ⟨['a'], ['a'], ['a'], ['a']⟩ [] [] = [] := by
  constructor
  · simp [rank, emptyComp, oneW, metricsFor, primary, primaryAux, primaryStep, findCharIn,
      findCharAux, initPrim, isConsecutive, mkWeight, cumW, addW, mulW, zeroW, sortedW,
      keyBy, allDims, getDim, List.mergeSort]
  · simp [rank, cumW, addW, mulW, zeroW, sortedW, List.mergeSort]

/-- Claim C6 (amended): no candidate is rejected at ingestion — `rank`
returns a permutation of the supplied candidate sequence (every
candidate, malformed or not, is scored into the cumulative
normalization and appears in the output), and the request never fails on
malformed or empty input. -/
theorem claim6_no_rejection (band : ℕ) (adjustment : Weights) (ctx : Ctx)
    (sqls : List SqlMetrics) (comps : List Comp) (h : comps.length ≤ sqls.length) :
    (rank band adjustment ctx sqls comps).Perm comps := by
  simp only [rank]
  have hperm := (List.mergeSort_perm
    (List.map (fun x => (x.1, mkWeight x.2.1 x.2.2))
      (comps.zip (sqls.zip (comps.map (metricsFor band ctx)))))
    (fun p q => decide (keyBy (cumW adjustment
      (List.map Prod.snd (List.map (fun x => (x.1, mkWeight x.2.1 x.2.2))
        (comps.zip (sqls.zip (comps.map (metricsFor band ctx))))))) q.2 ≤
      keyBy (cumW adjustment
        (List.map Prod.snd (List.map (fun x => (x.1, mkWeight x.2.1 x.2.2))
          (comps.zip (sqls.zip (comps.map (metricsFor band ctx))))))) p.2)))
  have hmap := hperm.map Prod.fst
  rw [rank_individual_fst band ctx sqls comps h] at hmap
  exact hmap

/-- Witness for C6 (amended). -/
theorem claim6_witness :
    (([emptyComp] : List Comp).length ≤ ([⟨1, 1, 1⟩] : List SqlMetrics).length) ∧
    (rank 2 oneW ⟨['a'], ['a'], ['a'], ['a']⟩ [⟨1, 1, 1⟩] [emptyComp]).Perm [emptyComp] :=
  ⟨by simp, claim6_no_rejection 2 oneW ⟨['a'], ['a'], ['a'], ['a']⟩ [⟨1, 1, 1⟩] [emptyComp]
    (by simp)⟩

/-- Claim C8: whenever `_primary` raises `_ToleranceExceeded` for a
(context, candidate) pair, `_metrics` returns the `_secondary` result on
the case-folded context and candidate — a total function here, so it
never raises — and that `_MatchMetrics` value has all four fields
non-negative, in the same shape the primary path produces. -/
theorem claim8_fallback_safe (band : ℕ) (ctx : Ctx) (cmp : Comp)
    (h : primary band (if cmp.wordStart then ctx.words_before else ctx.syms_before)
        cmp.text cmp.ntext = none) :
    metricsFor band ctx cmp =
      secondary (if cmp.wordStart then ctx.n_words_before else ctx.n_syms_before) cmp.ntext ∧
    0 ≤ (metricsFor band ctx cmp).prefix_matches ∧
    0 ≤ (metricsFor band ctx cmp).match_density ∧
    0 ≤ (metricsFor band ctx cmp).consecutive_matches ∧
    0 ≤ (metricsFor band ctx cmp).num_matches := by
  have hm : metricsFor band ctx cmp =
      secondary (if cmp.wordStart then ctx.n_words_before else ctx.n_syms_before) cmp.ntext := by
    unfold metricsFor
    rw [h]
  refine ⟨hm, Nat.zero_le _, ?_, Nat.zero_le _, Nat.zero_le _⟩
  rw [hm]
  exact (secondary_props _ cmp.ntext).2.2.2.1

/-- Witness for C8: `transpose_band = 0` with context `"ab"` and an
empty candidate escapes the primary path. -/
theorem claim8_witness :
    primary 0 (if (⟨[], [], true⟩ : Comp).wordStart
        then (⟨['a', 'b'], ['a', 'b'], [], []⟩ : Ctx).words_before
        else (⟨['a', 'b'], ['a', 'b'], [], []⟩ : Ctx).syms_before)
      (⟨[], [], true⟩ : Comp).text (⟨[], [], true⟩ : Comp).ntext = none ∧
    (metricsFor 0 ⟨['a', 'b'], ['a', 'b'], [], []⟩ ⟨[], [], true⟩ =
        secondary ['a', 'b'] [] ∧
      0 ≤ (metricsFor 0 ⟨['a', 'b'], ['a', 'b'], [], []⟩ ⟨[], [], true⟩).prefix_matches ∧
      0 ≤ (metricsFor 0 ⟨['a', 'b'], ['a', 'b'], [], []⟩ ⟨[], [], true⟩).match_density ∧
      0 ≤ (metricsFor 0 ⟨['a', 'b'], ['a', 'b'], [], []⟩ ⟨[], [], true⟩).consecutive_matches ∧
      0 ≤ (metricsFor 0 ⟨['a', 'b'], ['a', 'b'], [], []⟩ ⟨[], [], true⟩).num_matches) := by
  have h : primary 0 (if (⟨[], [], true⟩ : Comp).wordStart
      then (⟨['a', 'b'], ['a', 'b'], [], []⟩ : Ctx).words_before
      else (⟨['a', 'b'], ['a', 'b'], [], []⟩ : Ctx).syms_before)
      (⟨[], [], true⟩ : Comp).text (⟨[], [], true⟩ : Comp).ntext = none := by
    simp [primary, primaryAux, primaryStep, findCharIn, findCharAux, initPrim]
  exact ⟨h, claim8_fallback_safe 0 ⟨['a', 'b'], ['a', 'b'], [], []⟩ ⟨[], [], true⟩ h⟩

/-- The `"foo"` candidate of the worked example. -/
def compFoo : Comp := ⟨['f', 'o', 'o'], ['f', 'o', 'o'], true⟩

/-- The `"bar"` candidate of the worked example. -/
def compBar : Comp := ⟨['b', 'a', 'r'], ['b', 'a', 'r'], true⟩

/-- The `"food"` candidate of the worked example. -/
def compFood : Comp := ⟨['f', 'o', 'o', 'd'], ['f', 'o', 'o', 'd'], true⟩

/-- Context with word run `"fo"` before the cursor. -/
def ctxFo : Ctx := ⟨['f', 'o'], ['f', 'o'], [], []⟩

/-- Equal usage metrics for every candidate of the worked example. -/
def usageEq : SqlMetrics := ⟨1, 1, 1⟩

/-- Claim C9: with word-before `"fo"`, candidates `["foo", "bar",
"food"]` and `transpose_band = 3`, all three candidates resolve through
the primary path (`prefix_matches = num_matches = 2` for `"foo"` and
`"food"`, all-zero metrics and density 0 for `"bar"`), and with equal
usage metrics the ranking puts `"foo"` first, then `"food"`, then
`"bar"`. -/
theorem claim9_fo_example :
    primary 3 ['f', 'o'] ['f', 'o', 'o'] ['f', 'o', 'o'] = some ⟨2, 2 / 3, 1, 2⟩ ∧
    primary 3 ['f', 'o'] ['b', 'a', 'r'] ['b', 'a', 'r'] = some ⟨0, 0, 0, 0⟩ ∧
    primary 3 ['f', 'o'] ['f', 'o', 'o', 'd'] ['f', 'o', 'o', 'd'] =
      some ⟨2, 1 / 2, 1, 2⟩ ∧
    rank 3 oneW ctxFo [usageEq, usageEq, usageEq] [compFoo, compBar, compFood] =
      [compFoo, compFood, compBar] := by
  refine ⟨?_, ?_, ?_, ?_⟩
  · simp [primary, primaryAux, primaryStep, findCharIn, findCharAux, initPrim, isConsecutive]
  · simp [primary, primaryAux, primaryStep, findCharIn, findCharAux, initPrim, isConsecutive]
  · simp [primary, primaryAux, primaryStep, findCharIn, findCharAux, initPrim, isConsecutive]
    norm_num
  · simp [rank, oneW, compFoo, compBar, compFood, ctxFo, usageEq, metricsFor, primary,
      primaryAux, primaryStep, findCharIn, findCharAux, initPrim, isConsecutive, mkWeight,
      cumW, addW, mulW, zeroW, sortedW, keyBy, allDims, getDim, List.mergeSort, List.merge]
    norm_num

end Metrics
